import Mathlib

/-!
Shallow embedding of the backup/restore and notification subsystem of the
start-os backend (`src/backend/src/backup/mod.rs`, `src/backend/src/notifications.rs`),
together with proofs about the embedded operations.
-/

set_option maxHeartbeats 1000000

namespace StartOS

/-! ## Notification ledger (`notifications.rs`) -/

/-- Notification severity level (`NotificationLevel` in `notifications.rs`). -/
inductive NotificationLevel where
  | success
  | info
  | warning
  | error
deriving DecidableEq, Repr

/-- `impl Display for NotificationLevel` from `notifications.rs`: the string written
into the `level` column of the ledger. -/
def NotificationLevel.display : NotificationLevel → String
  | .success => "success"
  | .info => "info"
  | .warning => "warning"
  | .error => "error"

/-- `impl FromStr for NotificationLevel` from `notifications.rs`: parse failure carries
the offending string (`InvalidNotificationLevel`), which `list` converts into a
`ParseDbField`-kind error. -/
def NotificationLevel.fromStr (s : String) : Except String NotificationLevel :=
  if s = "success" then .ok .success
  else if s = "info" then .ok .info
  else if s = "warning" then .ok .warning
  else if s = "error" then .ok .error
  else .error s

/-- Debounce-cache key, as in `NotificationManager.cache`:
`(package_id, level, title)`. -/
abbrev NKey := Option String × NotificationLevel × String

/-- Association-list lookup, modelling `HashMap::get` on the debounce cache. -/
def cacheLookup (c : List (NKey × Int)) (k : NKey) : Option Int :=
  match c with
  | [] => none
  | (k', v) :: rest => if k' = k then some v else cacheLookup rest k

/-- Association-list insert-or-replace, modelling `HashMap::insert` on the debounce
cache. -/
def cacheInsert (c : List (NKey × Int)) (k : NKey) (v : Int) : List (NKey × Int) :=
  match c with
  | [] => [(k, v)]
  | (k', v') :: rest => if k' = k then (k, v) :: rest else (k', v') :: cacheInsert rest k v

/-- `NotificationManager::should_notify` from `notifications.rs` (lines 275-305).
Returns the admission decision and the updated cache.  An event is admitted when the
key is absent from the cache, or `debounce_interval` is `None`, or
`last_issued + interval <= now`; a suppressed call leaves the cache untouched. -/
def shouldNotify (cache : List (NKey × Int)) (k : NKey) (debounce : Option Nat)
    (now : Int) : Bool × List (NKey × Int) :=
  match cacheLookup cache k with
  | none => (true, cacheInsert cache k now)
  | some lastIssued =>
    match debounce with
    | none => (true, cacheInsert cache k now)
    | some interval =>
      if lastIssued + (interval : Int) > now then (false, cache)
      else (true, cacheInsert cache k now)

/-- A row of the persisted `notifications` ledger (the columns inserted by
`NotificationManager::notify`, plus the auto-increment `id`). -/
structure NRow where
  id : Nat
  package_id : Option String
  code : Int
  level : String
  title : String
  message : String
  payload : String
deriving DecidableEq, Repr

/-- State of the notification subsystem: the in-memory debounce cache, the persisted
ledger rows in insertion order, the database's next auto-increment id, and the
server-info `unread-notification-count` field. -/
structure NMState where
  cache : List (NKey × Int)
  rows : List NRow
  nextId : Nat
  unread : Nat
deriving DecidableEq, Repr

/-- Arguments of one `NotificationManager::notify` call, together with the instant
(Unix seconds) at which the call runs. -/
structure NCall where
  now : Int
  package_id : Option String
  level : NotificationLevel
  title : String
  message : String
  code : Int
  payload : String
  debounce : Option Nat
deriving DecidableEq, Repr

/-- The debounce-cache key of a call. -/
def NCall.key (c : NCall) : NKey := (c.package_id, c.level, c.title)

/-- `NotificationManager::notify` from `notifications.rs` (lines 236-274), on the
success path of the database operations: if `should_notify` rejects, return with no
state change; otherwise insert a ledger row (with `level` stored via `Display`) and
increment the unread counter by one. -/
def notify (s : NMState) (c : NCall) : NMState :=
  if (shouldNotify s.cache c.key c.debounce c.now).1 then
    { cache := (shouldNotify s.cache c.key c.debounce c.now).2
      rows := s.rows ++
        [⟨s.nextId, c.package_id, c.code, c.level.display, c.title, c.message, c.payload⟩]
      nextId := s.nextId + 1
      unread := s.unread + 1 }
  else
    { s with cache := (shouldNotify s.cache c.key c.debounce c.now).2 }

/-- Whether a `notify` call is admitted by the debounce check in the given state. -/
def admitted (s : NMState) (c : NCall) : Bool :=
  (shouldNotify s.cache c.key c.debounce c.now).1

/-- `list` from `notifications.rs` with `before` absent: return the most recent
`limit` rows in descending id order and reset the unread counter to zero. -/
def listBeforeNone (s : NMState) (limit : Nat) : List NRow × NMState :=
  (s.rows.reverse.take limit, { s with unread := 0 })

/-- `list` from `notifications.rs` with `before = some b`: rows with `id < b`,
descending, no counter side effect. -/
def listBeforeSome (s : NMState) (b : Nat) (limit : Nat) : List NRow × NMState :=
  ((s.rows.filter (fun r => r.id < b)).reverse.take limit, s)

/-- Run a sequence of `notify` calls in order. -/
def runNotifies (s : NMState) : List NCall → NMState
  | [] => s
  | c :: rest => runNotifies (notify s c) rest

/-- Every call in the sequence is admitted at the point at which it runs. -/
def allAdmitted (s : NMState) : List NCall → Bool
  | [] => true
  | c :: rest => admitted s c && allAdmitted (notify s c) rest

/-- The ledger ids are strictly increasing in insertion order. -/
def idsIncreasing : List NRow → Bool
  | [] => true
  | [_] => true
  | a :: b :: rest => decide (a.id < b.id) && idsIncreasing (b :: rest)

/-- Well-formedness of the notification state: ids strictly increase in insertion
order and are all below the next auto-increment id. -/
def nmWf (s : NMState) : Bool :=
  idsIncreasing s.rows && s.rows.all (fun r => decide (r.id < s.nextId))

/-! ## Metadata envelope wire format

The envelope is written and read through `IoFormat::Cbor` (`crate::util::serde`,
not included under src/), i.e. serde_cbor.  The CBOR layer below is modelled from
the spec (section 4.2 and 6: compact self-describing binary, CBOR major types,
optional fields defaulting), restricted to the data items the envelope uses. -/

mutual

/-- Modelled from the spec: a CBOR data item as produced/consumed by the envelope
codec (`IoFormat::Cbor`, not included under src/): unsigned integers, byte strings,
text strings (as raw byte sequences), maps, and null. -/
inductive Cbor where
  | nat : Nat → Cbor
  | bytes : List Nat → Cbor
  | text : List Nat → Cbor
  | map : CEntries → Cbor
  | null : Cbor
deriving DecidableEq, Repr

/-- Entry list of a CBOR map. -/
inductive CEntries where
  | nil : CEntries
  | cons : Cbor → Cbor → CEntries → CEntries
deriving DecidableEq, Repr

end

/-- Number of entries of a CBOR map. -/
def CEntries.length : CEntries → Nat
  | .nil => 0
  | .cons _ _ es => es.length + 1

/-- Upper bound on CBOR length arguments (64-bit). -/
def TWO64 : Nat := 18446744073709551616

/-- CBOR initial-byte encoding of a major type and its argument, minimal-length. -/
def encodeHead (major : Nat) (n : Nat) : List Nat :=
  if n < 24 then [major * 32 + n]
  else if n < 256 then [major * 32 + 24, n]
  else if n < 65536 then [major * 32 + 25, n / 256, n % 256]
  else if n < 4294967296 then
    [major * 32 + 26, n / 16777216, n / 65536 % 256, n / 256 % 256, n % 256]
  else
    [major * 32 + 27, n / 72057594037927936, n / 281474976710656 % 256,
     n / 1099511627776 % 256, n / 4294967296 % 256, n / 16777216 % 256,
     n / 65536 % 256, n / 256 % 256, n % 256]

mutual

/-- Encode a CBOR item to bytes (big-endian arguments, definite lengths), as the
envelope codec does. -/
def encodeCbor : Cbor → List Nat
  | .nat n => encodeHead 0 n
  | .bytes b => encodeHead 2 b.length ++ b
  | .text t => encodeHead 3 t.length ++ t
  | .map es => encodeHead 5 es.length ++ encodeEntries es
  | .null => [246]

/-- Encode the entries of a CBOR map, keys and values interleaved. -/
def encodeEntries : CEntries → List Nat
  | .nil => []
  | .cons k v es => encodeCbor k ++ encodeCbor v ++ encodeEntries es

end

mutual

/-- Wellformedness of a CBOR item: every length/integer argument fits in 64 bits. -/
def wfCborB : Cbor → Bool
  | .nat n => decide (n < TWO64)
  | .bytes b => decide (b.length < TWO64)
  | .text t => decide (t.length < TWO64)
  | .map es => decide (es.length < TWO64) && wfEntriesB es
  | .null => true

/-- Wellformedness of CBOR map entries. -/
def wfEntriesB : CEntries → Bool
  | .nil => true
  | .cons k v es => wfCborB k && wfCborB v && wfEntriesB es

end

mutual

/-- Parser fuel needed for a CBOR item (its nesting depth). -/
def depthC : Cbor → Nat
  | .nat _ => 1
  | .bytes _ => 1
  | .text _ => 1
  | .map es => 1 + depthEntries es
  | .null => 1

/-- Parser fuel needed for the entries of a CBOR map. -/
def depthEntries : CEntries → Nat
  | .nil => 1
  | .cons k v es => 1 + max (max (depthC k) (depthC v)) (depthEntries es)

end

/-- Split off the first `n` bytes of the input, failing if it is too short. -/
def takeN : Nat → List Nat → Except Unit (List Nat × List Nat)
  | 0, s => .ok ([], s)
  | _ + 1, [] => .error ()
  | n + 1, b :: s =>
    match takeN n s with
    | .ok (xs, r) => .ok (b :: xs, r)
    | .error e => .error e

/-- Big-endian byte-sequence to natural number. -/
def bytesToNat : List Nat → Nat → Nat
  | [], acc => acc
  | b :: rest, acc => bytesToNat rest (acc * 256 + b)

/-- Read a `len`-byte big-endian argument after an initial byte of major type
`major`. -/
def headTail (len major : Nat) (r : List Nat) : Except Unit (Nat × Nat × List Nat) :=
  match takeN len r with
  | .error e => .error e
  | .ok (ds, r') => .ok (major, bytesToNat ds 0, r')

/-- Parse a CBOR initial byte plus argument: major type, argument value, rest. -/
def parseHead : List Nat → Except Unit (Nat × Nat × List Nat)
  | [] => .error ()
  | b :: r =>
    if b % 32 < 24 then .ok (b / 32, b % 32, r)
    else if b % 32 = 24 then headTail 1 (b / 32) r
    else if b % 32 = 25 then headTail 2 (b / 32) r
    else if b % 32 = 26 then headTail 4 (b / 32) r
    else if b % 32 = 27 then headTail 8 (b / 32) r
    else .error ()

mutual

/-- Fuel-indexed recursive-descent parser for the CBOR items of the envelope
format; rejects anything outside the supported shapes. -/
def parseValue : Nat → List Nat → Except Unit (Cbor × List Nat)
  | 0, _ => .error ()
  | fuel + 1, s =>
    match parseHead s with
    | .error e => .error e
    | .ok (major, v, r) =>
      if major = 0 then .ok (.nat v, r)
      else if major = 2 then
        match takeN v r with
        | .error e => .error e
        | .ok (b, r') => .ok (.bytes b, r')
      else if major = 3 then
        match takeN v r with
        | .error e => .error e
        | .ok (b, r') => .ok (.text b, r')
      else if major = 5 then
        match parseEntries fuel v r with
        | .error e => .error e
        | .ok (es, r') => .ok (.map es, r')
      else if major = 7 then
        if v = 22 then .ok (.null, r) else .error ()
      else .error ()

/-- Parse `n` CBOR map entries. -/
def parseEntries : Nat → Nat → List Nat → Except Unit (CEntries × List Nat)
  | 0, _, _ => .error ()
  | _ + 1, 0, s => .ok (.nil, s)
  | fuel + 1, n + 1, s =>
    match parseValue fuel s with
    | .error e => .error e
    | .ok (k, r1) =>
      match parseValue fuel r1 with
      | .error e => .error e
      | .ok (v, r2) =>
        match parseEntries fuel n r2 with
        | .error e => .error e
        | .ok (es, r3) => .ok (.cons k v es, r3)

end

/-- Decode one complete CBOR item from a buffer; trailing bytes are rejected, as
`serde_cbor::from_slice` does. -/
def decodeTop (s : List Nat) : Except Unit Cbor :=
  match parseValue (s.length + 1) s with
  | .error e => .error e
  | .ok (v, []) => .ok v
  | .ok (_, _ :: _) => .error ()

/-! ## The envelope structure and its codec -/

/-- Error kinds surfaced by the subsystem (`crate::ErrorKind`, as used in
`backup/mod.rs` and `notifications.rs`). -/
inductive ErrorKind where
  | filesystem
  | backup
  | restore
  | serialization
  | database
  | parseDbField
  | validateS9pk
  | other
deriving DecidableEq, Repr

/-- An error value: kind plus the (opaque) message string. -/
structure RsError where
  kind : ErrorKind
  msg : String
deriving DecidableEq, Repr

/-- UTF-8 code points of a string literal, as a byte-level name. -/
def strBytes (s : String) : List Nat := s.toList.map Char.toNat

/-- ASCII decimal rendering of a natural number (the model of the envelope's
RFC3339-style instant rendering: an injective text rendering of the instant). -/
def natToDigits (n : Nat) : List Nat :=
  if _h : n < 10 then [48 + n]
  else natToDigits (n / 10) ++ [48 + n % 10]
termination_by n
decreasing_by omega

/-- Accumulating ASCII decimal parser; fails on any non-digit byte. -/
def digitsToNatAux : List Nat → Nat → Option Nat
  | [], acc => some acc
  | d :: rest, acc =>
    if 48 ≤ d then
      if d ≤ 57 then digitsToNatAux rest (acc * 10 + (d - 48)) else none
    else none

/-- Parse a nonempty ASCII decimal byte string (model of parsing the envelope's
instant text back; malformed text is a decode error). -/
def digitsToNat : List Nat → Option Nat
  | [] => none
  | d :: rest => digitsToNatAux (d :: rest) 0

/-- Strict lexicographic order on byte strings (the `Ord` used by `BTreeMap` keys). -/
def bytesLt : List Nat → List Nat → Bool
  | [], [] => false
  | [], _ :: _ => true
  | _ :: _, [] => false
  | a :: as, b :: bs => if a < b then true else if a = b then bytesLt as bs else false

/-- `BTreeMap::insert` on an association list sorted by `bytesLt`: replaces an
existing binding of the key, otherwise inserts at the ordered position. -/
def insertSorted (k v : List Nat) : List (List Nat × List Nat) → List (List Nat × List Nat)
  | [] => [(k, v)]
  | (k', v') :: rest =>
    if bytesLt k k' then (k, v) :: (k', v') :: rest
    else if k = k' then (k, v) :: rest
    else (k', v') :: insertSorted k v rest

/-- Every key of the map is `bytesLt`-above `k`. -/
def allLt (k : List Nat) : List (List Nat × List Nat) → Bool
  | [] => true
  | (k', _) :: rest => bytesLt k k' && allLt k rest

/-- Wellformedness of a key map as iterated from a `BTreeMap`: values all of byte
length `len`, keys within 64-bit length and pairwise strictly ascending. -/
def keyMapWf (len : Nat) : List (List Nat × List Nat) → Bool
  | [] => true
  | (k, v) :: rest =>
    decide (v.length = len) && decide (k.length < TWO64) && allLt k rest && keyMapWf len rest

/-- `BackupMetadata` from `backup/mod.rs` (lines 63-71): the persisted envelope.
The instant is modelled as a natural number; `network_keys` / `tor_keys` are the
`BTreeMap`s in ascending key order; `marketplace_url` is the optional URL text. -/
structure BackupMetadata where
  timestamp : Nat
  network_keys : List (List Nat × List Nat)
  tor_keys : List (List Nat × List Nat)
  marketplace_url : Option (List Nat)
deriving DecidableEq, Repr

/-- A key map as the CBOR entries of a map item: text keys, byte-string values. -/
def keysToEntries : List (List Nat × List Nat) → CEntries
  | [] => .nil
  | (k, v) :: rest => .cons (.text k) (.bytes v) (keysToEntries rest)

/-- The CBOR item serde serializes `marketplace_url` to: null when absent. -/
def urlToCbor : Option (List Nat) → Cbor
  | none => .null
  | some u => .text u

/-- The CBOR item the envelope serializer produces for a `BackupMetadata` value:
a map with the four struct fields in declaration order. -/
def metadataToCbor (m : BackupMetadata) : Cbor :=
  .map (.cons (.text (strBytes "timestamp")) (.text (natToDigits m.timestamp))
    (.cons (.text (strBytes "network_keys")) (.map (keysToEntries m.network_keys))
      (.cons (.text (strBytes "tor_keys")) (.map (keysToEntries m.tor_keys))
        (.cons (.text (strBytes "marketplace_url")) (urlToCbor m.marketplace_url) .nil))))

/-- `IoFormat::Cbor.to_vec` on a `BackupMetadata` value. -/
def encodeMetadata (m : BackupMetadata) : List Nat :=
  encodeCbor (metadataToCbor m)

/-- Decoder state while walking the envelope's map entries: which struct fields
have been seen, serde-style. -/
structure FieldsAcc where
  ts : Option Nat
  nk : Option (List (List Nat × List Nat))
  tk : Option (List (List Nat × List Nat))
  mu : Option (Option (List Nat))
deriving DecidableEq, Repr

/-- Deserialize a `BTreeMap<InterfaceId, [u8; len]>` field from CBOR map entries:
keys must be text, values byte strings of exactly `len` bytes; entries are inserted
into the map in order. -/
def parseKeyMap (len : Nat) : CEntries → List (List Nat × List Nat) →
    Except Unit (List (List Nat × List Nat))
  | .nil, acc => .ok acc
  | .cons (.text k) (.bytes v) rest, acc =>
    if v.length = len then parseKeyMap len rest (insertSorted k v acc) else .error ()
  | .cons _ _ _, _ => .error ()

/-- The serde-derive field loop for `BackupMetadata`: known fields are parsed at
their declared types (duplicates rejected), unknown fields are ignored, non-text
keys are rejected. -/
def parseFields : CEntries → FieldsAcc → Except Unit FieldsAcc
  | .nil, acc => .ok acc
  | .cons (.text kn) v rest, acc =>
    if kn = strBytes "timestamp" then
      match acc.ts with
      | some _ => .error ()
      | none =>
        match v with
        | .text ds =>
          match digitsToNat ds with
          | some t => parseFields rest { acc with ts := some t }
          | none => .error ()
        | _ => .error ()
    else if kn = strBytes "network_keys" then
      match acc.nk with
      | some _ => .error ()
      | none =>
        match v with
        | .map es =>
          match parseKeyMap 32 es [] with
          | .ok km => parseFields rest { acc with nk := some km }
          | .error e => .error e
        | _ => .error ()
    else if kn = strBytes "tor_keys" then
      match acc.tk with
      | some _ => .error ()
      | none =>
        match v with
        | .map es =>
          match parseKeyMap 64 es [] with
          | .ok km => parseFields rest { acc with tk := some km }
          | .error e => .error e
        | _ => .error ()
    else if kn = strBytes "marketplace_url" then
      match acc.mu with
      | some _ => .error ()
      | none =>
        match v with
        | .null => parseFields rest { acc with mu := some none }
        | .text u => parseFields rest { acc with mu := some (some u) }
        | _ => .error ()
    else parseFields rest acc
  | .cons _ _ _, _ => .error ()

/-- Deserialize a `BackupMetadata` from a parsed CBOR item: the item must be a map;
`timestamp` is required, `network_keys` and `tor_keys` default to empty maps when
absent, `marketplace_url` defaults to absent (`#[serde(default)]` / `Option`
semantics of the struct declaration in `backup/mod.rs`). -/
def metadataFromCbor : Cbor → Except Unit BackupMetadata
  | .map es =>
    (match parseFields es ⟨none, none, none, none⟩ with
     | .error e => .error e
     | .ok acc =>
       match acc.ts with
       | none => .error ()
       | some t => .ok ⟨t, acc.nk.getD [], acc.tk.getD [], acc.mu.getD none⟩)
  | _ => .error ()

/-- `IoFormat::Cbor.from_slice::<BackupMetadata>`: any malformed input is a
`Serialization`-kind error, never a default value. -/
def decodeMetadata (s : List Nat) : Except RsError BackupMetadata :=
  match decodeTop s with
  | .error _ => .error ⟨.serialization, "cbor"⟩
  | .ok v =>
    match metadataFromCbor v with
    | .error _ => .error ⟨.serialization, "cbor"⟩
    | .ok m => .ok m

/-- A valid `BackupMetadata` value: the instant fits in 64 bits, both key maps are
sorted with 32- resp. 64-byte values, and all lengths fit in 64 bits. -/
def validMeta (m : BackupMetadata) : Bool :=
  decide (m.timestamp < TWO64) &&
  keyMapWf 32 m.network_keys && decide (m.network_keys.length < TWO64) &&
  keyMapWf 64 m.tor_keys && decide (m.tor_keys.length < TWO64) &&
  (match m.marketplace_url with
   | none => true
   | some u => decide (u.length < TWO64))

/-! ## Volumes -/

/-- A volume id: the special injected `backup` volume (`VolumeId::Backup`) or a
package-declared id. -/
inductive VolumeId where
  | backup
  | named : String → VolumeId
deriving DecidableEq, Repr

/-- A volume, reduced to the property the backup paths care about: writability. -/
structure Volume where
  readonly : Bool
deriving DecidableEq, Repr

/-- The package's declared volume map (`Volumes`). -/
abbrev VolumeMap := List (VolumeId × Volume)

/-- Modelled from the spec: `Volumes::to_readonly` (`crate::volume`, not included
under src/) maps every declared volume to its read-only variant. -/
def toReadonly (vs : VolumeMap) : VolumeMap :=
  vs.map (fun p => (p.1, { readonly := true }))

/-- `BTreeMap::insert` on the volume map. -/
def volInsert : VolumeMap → VolumeId → Volume → VolumeMap
  | [], k, v => [(k, v)]
  | (k', v') :: rest, k, v =>
    if k' = k then (k, v) :: rest else (k', v') :: volInsert rest k v

/-- `BTreeMap::get` on the volume map. -/
def volLookup : VolumeMap → VolumeId → Option Volume
  | [], _ => none
  | (k', v') :: rest, k => if k' = k then some v' else volLookup rest k

/-- The effective volume set `BackupActions::create` passes to the procedure
(`backup/mod.rs` lines 106-107): all declared volumes made read-only, plus a
writable injected backup volume. -/
def createVolumes (vs : VolumeMap) : VolumeMap :=
  volInsert (toReadonly vs) .backup ⟨false⟩

/-- The effective volume set `BackupActions::restore` passes to the procedure
(`backup/mod.rs` lines 202-203): the declared volumes unchanged, plus a read-only
injected backup volume. -/
def restoreVolumes (vs : VolumeMap) : VolumeMap :=
  volInsert vs .backup ⟨true⟩

/-! ## Backup orchestrator (`BackupActions::create` / `BackupActions::restore`) -/

/-- One network identity key as returned by `Key::for_package`: the interface it is
bound to (if any), its 32 raw bytes and its 64 tor-key bytes. -/
structure KeyEntry where
  interface : Option (List Nat)
  keyBytes : List Nat
  torBytes : List Nat
deriving DecidableEq, Repr

/-- The `filter_map`/`unzip` projection in `create` (`backup/mod.rs` lines
125-135): keys with no bound interface are dropped; the rest are collected into the
`(network_keys, tor_keys)` `BTreeMap` pair keyed by interface. -/
def projectKeys (ks : List KeyEntry) :
    List (List Nat × List Nat) × List (List Nat × List Nat) :=
  ks.foldl
    (fun acc k =>
      match k.interface with
      | none => acc
      | some i => (insertSorted i k.keyBytes acc.1, insertSorted i k.torBytes acc.2))
    ([], [])

/-- `PackageBackupInfo` (`backup/target.rs`): the summary returned by `create`. -/
structure PackageBackupInfo where
  os_version : String
  title : String
  version : String
  timestamp : Nat
deriving DecidableEq, Repr

/-- Environment of one `BackupActions::create` call: the outcome of each external
step in program order, plus the instants relevant to the timestamp.
The inner value of `procResult` is the procedure's own result (`Err((code, message))` on
procedure failure); `tProcSuccess` is the instant at which the procedure's execution
was reported successful; `tAfterArchiveSave` is the value `Utc::now()` returns at
line 170 of `backup/mod.rs`, after the archive copy is committed. -/
structure CreateEnv where
  dirResult : Except RsError Unit
  procResult : Except RsError (Except (Int × String) Unit)
  tProcSuccess : Nat
  keysResult : Except RsError (List KeyEntry)
  marketplaceUrlResult : Except RsError (Option (List Nat))
  openArchiveResult : Except RsError Unit
  newArchiveFileResult : Except RsError Unit
  copyResult : Except RsError Unit
  saveArchiveResult : Except RsError Unit
  tAfterArchiveSave : Nat
  newMetadataFileResult : Except RsError Unit
  writeMetadataResult : Except RsError Unit
  saveMetadataResult : Except RsError Unit
deriving Repr

/-- Observable side effects of one `create` call: how often the procedure ran,
whether key export was queried, whether the archive copy was started/committed, and
the metadata envelope committed by the Durable Write Primitive (if any). -/
structure CreateEffects where
  procInvocations : Nat
  keysQueried : Bool
  archiveCopyStarted : Bool
  archiveCommitted : Bool
  metadataCommitted : Option BackupMetadata
deriving DecidableEq, Repr

/-- `BackupActions::create` (`backup/mod.rs` lines 96-190), step by step in program
order: ensure the backup dir, run the package's create procedure (a non-success
inner result becomes a `Backup`-kind error carrying the procedure's message), export
network keys, read the marketplace url, copy the archive and commit it atomically,
sample `Utc::now()`, then build and atomically commit the metadata envelope with
that instant, returning it in `PackageBackupInfo`. -/
def backupCreate (env : CreateEnv) (pkgTitle pkgVersion osVersion : String) :
    Except RsError PackageBackupInfo × CreateEffects :=
  match env.dirResult with
  | .error e => (.error e, ⟨0, false, false, false, none⟩)
  | .ok _ =>
    match env.procResult with
    | .error e => (.error e, ⟨1, false, false, false, none⟩)
    | .ok (.error pe) => (.error ⟨.backup, pe.2⟩, ⟨1, false, false, false, none⟩)
    | .ok (.ok _) =>
      match env.keysResult with
      | .error e => (.error e, ⟨1, true, false, false, none⟩)
      | .ok ks =>
        match env.marketplaceUrlResult with
        | .error e => (.error e, ⟨1, true, false, false, none⟩)
        | .ok mpUrl =>
          match env.openArchiveResult with
          | .error e => (.error e, ⟨1, true, false, false, none⟩)
          | .ok _ =>
            match env.newArchiveFileResult with
            | .error e => (.error ⟨.filesystem, e.msg⟩, ⟨1, true, false, false, none⟩)
            | .ok _ =>
              match env.copyResult with
              | .error e => (.error ⟨.filesystem, e.msg⟩, ⟨1, true, true, false, none⟩)
              | .ok _ =>
                match env.saveArchiveResult with
                | .error e => (.error ⟨.filesystem, e.msg⟩, ⟨1, true, true, false, none⟩)
                | .ok _ =>
                  match env.newMetadataFileResult with
                  | .error e =>
                    (.error ⟨.filesystem, e.msg⟩, ⟨1, true, true, true, none⟩)
                  | .ok _ =>
                    match env.writeMetadataResult with
                    | .error e => (.error e, ⟨1, true, true, true, none⟩)
                    | .ok _ =>
                      match env.saveMetadataResult with
                      | .error e =>
                        (.error ⟨.filesystem, e.msg⟩, ⟨1, true, true, true, none⟩)
                      | .ok _ =>
                        (.ok ⟨osVersion, pkgTitle, pkgVersion, env.tAfterArchiveSave⟩,
                         ⟨1, true, true, true,
                          some ⟨env.tAfterArchiveSave, (projectKeys ks).1,
                            (projectKeys ks).2, mpUrl⟩⟩)

/-- Environment of one `BackupActions::restore` call: outcome of each external step
in program order.  `metadataBytes` is the content of `metadata.cbor` if present
(`none` models the file being absent, i.e. `tokio::fs::read` failing). -/
structure RestoreEnv where
  procResult : Except RsError (Except (Int × String) Unit)
  metadataBytes : Option (List Nat)
  pdeResult : Except RsError Unit
  dbPutResult : Except RsError Unit
  dbGetResult : Except RsError Nat
  receiptsResult : Except RsError Unit
  reconfigureResult : Except RsError Unit
deriving Repr

/-- Observable side effects of one `restore` call. -/
structure RestoreEffects where
  procInvocations : Nat
  metadataReadAttempted : Bool
  marketplaceWritten : Option (Option (List Nat))
  reconfigureCalls : Nat
deriving DecidableEq, Repr

/-- `BackupActions::restore` (`backup/mod.rs` lines 192-253), step by step: run the
package's restore procedure (non-success inner result becomes a `Restore`-kind error
carrying the procedure's message), read `metadata.cbor` (absence is a
`Filesystem`-kind error with the path as message), decode it, write its
`marketplace_url` into the installed record, re-read the record and trigger
dependent reconfiguration exactly once. -/
def backupRestore (env : RestoreEnv) : Except RsError Unit × RestoreEffects :=
  match env.procResult with
  | .error e => (.error e, ⟨1, false, none, 0⟩)
  | .ok (.error pe) => (.error ⟨.restore, pe.2⟩, ⟨1, false, none, 0⟩)
  | .ok (.ok _) =>
    match env.metadataBytes with
    | none => (.error ⟨.filesystem, "metadata.cbor"⟩, ⟨1, true, none, 0⟩)
    | some bs =>
      match decodeMetadata bs with
      | .error e => (.error e, ⟨1, true, none, 0⟩)
      | .ok md =>
        match env.pdeResult with
        | .error e => (.error e, ⟨1, true, none, 0⟩)
        | .ok _ =>
          match env.dbPutResult with
          | .error e => (.error e, ⟨1, true, none, 0⟩)
          | .ok _ =>
            match env.dbGetResult with
            | .error e => (.error e, ⟨1, true, some md.marketplace_url, 0⟩)
            | .ok _ =>
              match env.receiptsResult with
              | .error e => (.error e, ⟨1, true, some md.marketplace_url, 0⟩)
              | .ok _ =>
                match env.reconfigureResult with
                | .error e => (.error e, ⟨1, true, some md.marketplace_url, 1⟩)
                | .ok _ => (.ok (), ⟨1, true, some md.marketplace_url, 1⟩)

/-- A fully successful `create` environment in which the procedure's execution is
reported successful at instant 0 while the `Utc::now()` sample taken after the
archive copy commits reads 5. -/
def c1env : CreateEnv :=
  ⟨.ok (), .ok (.ok ()), 0, .ok [], .ok none, .ok (), .ok (), .ok (), .ok (), 5,
   .ok (), .ok (), .ok ()⟩

/-- A `create` environment whose create procedure reports failure. -/
def c6createEnv : CreateEnv :=
  ⟨.ok (), .ok (.error (1, "create procedure failed")), 0, .ok [], .ok none, .ok (),
   .ok (), .ok (), .ok (), 0, .ok (), .ok (), .ok ()⟩

/-- A `restore` environment whose restore procedure reports failure. -/
def c6restoreEnv : RestoreEnv :=
  ⟨.ok (.error (1, "restore procedure failed")), some [], .ok (), .ok (), .ok 0,
   .ok (), .ok ()⟩

/-- A `restore` environment in which the procedure succeeds but the metadata
envelope file is absent. -/
def c5env : RestoreEnv :=
  ⟨.ok (.ok ()), none, .ok (), .ok (), .ok 0, .ok (), .ok ()⟩

/-! ## Durable Write Primitive -/

/-- Modelled from the spec: one step of the Durable Write Primitive's commit
(`AtomicFile` from the `helpers` crate, not included under src/): write the bytes to
a temporary path, sync it, atomically rename it onto the target, sync the
directory. -/
inductive CommitStep where
  | writeTmp
  | syncTmp
  | rename
  | syncDir
deriving DecidableEq, Repr

/-- Contents of the target path and the temporary path. -/
structure FsState where
  target : Option (List Nat)
  tmp : Option (List Nat)
deriving DecidableEq, Repr

/-- Effect of one commit step on the filesystem. -/
def applyStep (newContent : List Nat) (st : FsState) : CommitStep → FsState
  | .writeTmp => { st with tmp := some newContent }
  | .syncTmp => st
  | .rename => { target := st.tmp, tmp := none }
  | .syncDir => st

/-- The commit sequence of the Durable Write Primitive, in order. -/
def commitSeq : List CommitStep := [.writeTmp, .syncTmp, .rename, .syncDir]

/-- Filesystem state when the commit is interrupted after its first `k` steps,
starting from a target path holding `pre`. -/
def commitInterrupted (pre : Option (List Nat)) (newContent : List Nat) (k : Nat) :
    FsState :=
  (commitSeq.take k).foldl (applyStep newContent) { target := pre, tmp := none }

theorem shouldNotify_false_cache {cache : List (NKey × Int)} {k : NKey}
    {d : Option Nat} {now : Int} (h : (shouldNotify cache k d now).1 = false) :
    (shouldNotify cache k d now).2 = cache := by
  unfold shouldNotify at *
  cases hl : cacheLookup cache k with
  | none => simp [hl] at h
  | some last =>
    cases d with
    | none => simp [hl] at h
    | some i =>
      simp only [hl] at h ⊢
      by_cases hc : last + (i : Int) > now
      · simp [hc]
      · simp [hc] at h

theorem shouldNotify_true_cache {cache : List (NKey × Int)} {k : NKey}
    {d : Option Nat} {now : Int} (h : (shouldNotify cache k d now).1 = true) :
    (shouldNotify cache k d now).2 = cacheInsert cache k now := by
  unfold shouldNotify at *
  cases hl : cacheLookup cache k with
  | none => simp [hl]
  | some last =>
    cases d with
    | none => simp [hl]
    | some i =>
      simp only [hl] at h ⊢
      by_cases hc : last + (i : Int) > now
      · simp [hc] at h
      · simp [hc]

theorem notify_not_admitted {s : NMState} {c : NCall}
    (h : admitted s c = false) : notify s c = s := by
  unfold notify
  simp only [admitted] at h
  rw [shouldNotify_false_cache h, h]
  simp

theorem notify_admitted {s : NMState} {c : NCall}
    (h : admitted s c = true) :
    notify s c =
      { cache := cacheInsert s.cache c.key c.now
        rows := s.rows ++
          [⟨s.nextId, c.package_id, c.code, c.level.display, c.title, c.message, c.payload⟩]
        nextId := s.nextId + 1
        unread := s.unread + 1 } := by
  unfold notify
  simp only [admitted] at h
  rw [shouldNotify_true_cache h, h]
  simp

theorem cacheLookup_insert (cache : List (NKey × Int)) (k : NKey) (v : Int) :
    cacheLookup (cacheInsert cache k v) k = some v := by
  induction cache with
  | nil => simp [cacheInsert, cacheLookup]
  | cons hd tl ih =>
    obtain ⟨k', v'⟩ := hd
    by_cases hk : k' = k
    · simp [cacheInsert, cacheLookup, hk]
    · simp [cacheInsert, cacheLookup, hk, ih]

theorem admitted_debounce_none (s : NMState) (c : NCall) (h : c.debounce = none) :
    admitted s c = true := by
  unfold admitted shouldNotify
  rw [h]
  cases cacheLookup s.cache c.key <;> rfl

theorem admitted_after_lt {s : NMState} {c1 c2 : NCall} {interval : Nat}
    (hk : c2.key = c1.key) (hd2 : c2.debounce = some interval)
    (hadm : admitted s c1 = true)
    (hlt : c2.now < c1.now + (interval : Int)) :
    admitted (notify s c1) c2 = false := by
  rw [notify_admitted hadm]
  unfold admitted shouldNotify
  simp only [hk, hd2]
  rw [cacheLookup_insert]
  dsimp only
  rw [if_pos (by omega)]

theorem admitted_after_ge {s : NMState} {c1 c2 : NCall} {interval : Nat}
    (hk : c2.key = c1.key) (hd2 : c2.debounce = some interval)
    (hadm : admitted s c1 = true)
    (hge : c1.now + (interval : Int) ≤ c2.now) :
    admitted (notify s c1) c2 = true := by
  rw [notify_admitted hadm]
  unfold admitted shouldNotify
  simp only [hk, hd2]
  rw [cacheLookup_insert]
  dsimp only
  rw [if_neg (by omega)]

theorem notify_rows_admitted {s : NMState} {c : NCall} (h : admitted s c = true) :
    (notify s c).rows = s.rows ++
      [⟨s.nextId, c.package_id, c.code, c.level.display, c.title, c.message, c.payload⟩] := by
  rw [notify_admitted h]

theorem idsIncreasing_append_singleton {l : List NRow} {x : NRow}
    (h : idsIncreasing l = true) (hb : ∀ r ∈ l, r.id < x.id) :
    idsIncreasing (l ++ [x]) = true := by
  induction l with
  | nil => rfl
  | cons a tl ih =>
    cases tl with
    | nil =>
      simp only [List.cons_append, List.nil_append, idsIncreasing, Bool.and_eq_true,
        decide_eq_true_eq]
      exact ⟨hb a (by simp), trivial⟩
    | cons b rest =>
      simp only [idsIncreasing, Bool.and_eq_true, decide_eq_true_eq] at h
      have := ih h.2 (fun r hr => hb r (List.mem_cons_of_mem a hr))
      simp only [List.cons_append] at this ⊢
      simp only [idsIncreasing, Bool.and_eq_true, decide_eq_true_eq]
      exact ⟨h.1, this⟩

theorem nmWf_notify {s : NMState} {c : NCall} (h : nmWf s = true) :
    nmWf (notify s c) = true := by
  unfold nmWf at h
  simp only [Bool.and_eq_true, List.all_eq_true, decide_eq_true_eq] at h
  by_cases ha : admitted s c
  · rw [notify_admitted ha]
    unfold nmWf
    simp only [Bool.and_eq_true, List.all_eq_true, decide_eq_true_eq]
    constructor
    · exact idsIncreasing_append_singleton h.1 (fun r hr => h.2 r hr)
    · intro r hr
      rcases List.mem_append.mp hr with hl | hx
      · exact Nat.lt_succ_of_lt (h.2 r hl)
      · simp only [List.mem_singleton] at hx
        subst hx
        exact Nat.lt_succ_self _
  · rw [notify_not_admitted (by simpa using ha)]
    unfold nmWf
    simp only [Bool.and_eq_true, List.all_eq_true, decide_eq_true_eq]
    exact h

theorem nmWf_runNotifies (s : NMState) (cs : List NCall) (h : nmWf s = true) :
    nmWf (runNotifies s cs) = true := by
  induction cs generalizing s with
  | nil => exact h
  | cons c rest ih => exact ih _ (nmWf_notify h)

theorem runNotifies_unread (s : NMState) (cs : List NCall)
    (h : allAdmitted s cs = true) :
    (runNotifies s cs).unread = s.unread + cs.length := by
  induction cs generalizing s with
  | nil => simp [runNotifies]
  | cons c rest ih =>
    simp only [allAdmitted, Bool.and_eq_true] at h
    simp only [runNotifies, List.length_cons]
    rw [ih _ h.2, notify_admitted h.1]
    dsimp only
    omega

/-- Claim C3: with a fixed debounce interval `I`, a second `notify` call with the same
`(package_id, level, title)` key less than `I` after an admitted first call is a
complete no-op (the composite state equals the state after the first call alone, so
exactly one ledger row was inserted by the pair); a second call at least `I` after the
first inserts a second row; and any call with `debounce_interval = None` always
inserts a row, whatever the cache state. -/
theorem c3_debounce (s : NMState) (c1 c2 : NCall) (interval : Nat)
    (hk : c2.key = c1.key) (_hd1 : c1.debounce = some interval)
    (hd2 : c2.debounce = some interval) (hadm : admitted s c1 = true) :
    (c2.now - c1.now < (interval : Int) →
      notify (notify s c1) c2 = notify s c1 ∧
      (notify (notify s c1) c2).rows.length = s.rows.length + 1) ∧
    ((interval : Int) ≤ c2.now - c1.now →
      (notify (notify s c1) c2).rows.length = s.rows.length + 2) ∧
    (∀ (s' : NMState) (c : NCall), c.debounce = none →
      (notify s' c).rows.length = s'.rows.length + 1) := by
  refine ⟨?_, ?_, ?_⟩
  · intro hlt
    have hsup : admitted (notify s c1) c2 = false :=
      admitted_after_lt hk hd2 hadm (by omega)
    have hnoop := notify_not_admitted hsup
    refine ⟨hnoop, ?_⟩
    rw [hnoop, notify_rows_admitted hadm]
    simp
  · intro hge
    have hadm2 : admitted (notify s c1) c2 = true :=
      admitted_after_ge hk hd2 hadm (by omega)
    rw [notify_rows_admitted hadm2, notify_rows_admitted hadm]
    simp
  · intro s' c hc
    rw [notify_rows_admitted (admitted_debounce_none s' c hc)]
    simp

theorem c3_debounce_witness :
    notify (notify (⟨[], [], 0, 0⟩ : NMState)
        (⟨0, none, .warning, "disk-low", "m", 0, "d", some 3600⟩ : NCall))
        (⟨1, none, .warning, "disk-low", "m", 0, "d", some 3600⟩ : NCall) =
      notify (⟨[], [], 0, 0⟩ : NMState)
        (⟨0, none, .warning, "disk-low", "m", 0, "d", some 3600⟩ : NCall) :=
  ((c3_debounce ⟨[], [], 0, 0⟩
      ⟨0, none, .warning, "disk-low", "m", 0, "d", some 3600⟩
      ⟨1, none, .warning, "disk-low", "m", 0, "d", some 3600⟩ 3600
      (by decide) (by decide) (by decide) (by decide)).1 (by decide)).1

/-- Claim C4: after `N` admitted `notify` calls with no intervening `list` call with
`before` absent, the unread counter equals its prior value plus `N`; a single
`list(before = None)` call then resets the counter to zero regardless of `N`; and the
ledger ids remain strictly increasing in insertion order. -/
theorem c4_unread_counter_and_ids (s : NMState) (cs : List NCall) (limit : Nat)
    (hadm : allAdmitted s cs = true) (hwf : nmWf s = true) :
    (runNotifies s cs).unread = s.unread + cs.length ∧
    ((listBeforeNone (runNotifies s cs) limit).2).unread = 0 ∧
    nmWf (runNotifies s cs) = true := by
  refine ⟨runNotifies_unread s cs hadm, rfl, nmWf_runNotifies s cs hwf⟩

theorem c4_unread_counter_and_ids_witness :
    allAdmitted (⟨[], [], 0, 7⟩ : NMState)
        [⟨0, none, .info, "a", "m", 0, "d", none⟩,
         ⟨0, some "pkg", .error, "b", "m", 1, "d", none⟩] = true ∧
    nmWf (⟨[], [], 0, 7⟩ : NMState) = true ∧
    ((runNotifies (⟨[], [], 0, 7⟩ : NMState)
        [⟨0, none, .info, "a", "m", 0, "d", none⟩,
         ⟨0, some "pkg", .error, "b", "m", 1, "d", none⟩]).unread = 7 + 2 ∧
      ((listBeforeNone (runNotifies (⟨[], [], 0, 7⟩ : NMState)
        [⟨0, none, .info, "a", "m", 0, "d", none⟩,
         ⟨0, some "pkg", .error, "b", "m", 1, "d", none⟩]) 40).2).unread = 0 ∧
      nmWf (runNotifies (⟨[], [], 0, 7⟩ : NMState)
        [⟨0, none, .info, "a", "m", 0, "d", none⟩,
         ⟨0, some "pkg", .error, "b", "m", 1, "d", none⟩]) = true) :=
  ⟨by decide, by decide,
    c4_unread_counter_and_ids ⟨[], [], 0, 7⟩
      [⟨0, none, .info, "a", "m", 0, "d", none⟩,
       ⟨0, some "pkg", .error, "b", "m", 1, "d", none⟩] 40 (by decide) (by decide)⟩

/-- Claim C10: parsing the display string of any `NotificationLevel` returns that
level (`FromStr` after `Display` is the identity), and consequently the `level`
column of every ledger row written by `notify` parses back successfully, so the
`ParseDbField` error branch of `list` is unreachable for such rows. -/
theorem c10_level_display_fromStr :
    (∀ l : NotificationLevel, NotificationLevel.fromStr l.display = .ok l) ∧
    (∀ (s : NMState) (c : NCall), admitted s c = true →
      ∃ r : NRow, (notify s c).rows = s.rows ++ [r] ∧
        NotificationLevel.fromStr r.level = .ok c.level) := by
  have hdisp : ∀ l : NotificationLevel, NotificationLevel.fromStr l.display = .ok l := by
    intro l
    cases l <;> rfl
  refine ⟨hdisp, ?_⟩
  intro s c h
  exact ⟨_, notify_rows_admitted h, hdisp c.level⟩

theorem c10_level_display_fromStr_witness :
    NotificationLevel.fromStr (NotificationLevel.display .warning) = .ok .warning ∧
    (∃ r : NRow,
      (notify (⟨[], [], 0, 0⟩ : NMState)
          (⟨0, none, .warning, "t", "m", 0, "d", none⟩ : NCall)).rows = [] ++ [r] ∧
      NotificationLevel.fromStr r.level = .ok .warning) :=
  ⟨c10_level_display_fromStr.1 .warning,
    c10_level_display_fromStr.2 ⟨[], [], 0, 0⟩
      ⟨0, none, .warning, "t", "m", 0, "d", none⟩ (by decide)⟩

theorem takeN_append (l t : List Nat) : takeN l.length (l ++ t) = .ok (l, t) := by
  induction l with
  | nil => rfl
  | cons b bs ih => simp [takeN, ih]

theorem encodeHead_len_pos (major n : Nat) : 1 ≤ (encodeHead major n).length := by
  unfold encodeHead
  split_ifs <;> simp

theorem parseHead_encodeHead (major n : Nat) (t : List Nat) (hn : n < TWO64) :
    parseHead (encodeHead major n ++ t) = .ok (major, n, t) := by
  have hn' : n < 18446744073709551616 := by simpa [TWO64] using hn
  unfold encodeHead
  by_cases h1 : n < 24
  · have hm : (major * 32 + n) % 32 = n := by omega
    have hd : (major * 32 + n) / 32 = major := by omega
    simp [h1, parseHead, hm, hd]
  · by_cases h2 : n < 256
    · have hm : (major * 32 + 24) % 32 = 24 := by omega
      have hd : (major * 32 + 24) / 32 = major := by omega
      simp [h1, h2, parseHead, hm, hd, headTail, takeN, bytesToNat]
    · by_cases h3 : n < 65536
      · have hm : (major * 32 + 25) % 32 = 25 := by omega
        have hd : (major * 32 + 25) / 32 = major := by omega
        simp [h1, h2, h3, parseHead, hm, hd, headTail, takeN, bytesToNat]
        omega
      · by_cases h4 : n < 4294967296
        · have hm : (major * 32 + 26) % 32 = 26 := by omega
          have hd : (major * 32 + 26) / 32 = major := by omega
          simp [h1, h2, h3, h4, parseHead, hm, hd, headTail, takeN, bytesToNat]
          omega
        · have hm : (major * 32 + 27) % 32 = 27 := by omega
          have hd : (major * 32 + 27) / 32 = major := by omega
          simp [h1, h2, h3, h4, parseHead, hm, hd, headTail, takeN, bytesToNat]
          omega

theorem encode_len_pos (v : Cbor) : 1 ≤ (encodeCbor v).length := by
  cases v with
  | nat n => simpa [encodeCbor] using encodeHead_len_pos 0 n
  | bytes b =>
    have := encodeHead_len_pos 2 b.length
    simp only [encodeCbor, List.length_append]
    omega
  | text t =>
    have := encodeHead_len_pos 3 t.length
    simp only [encodeCbor, List.length_append]
    omega
  | map es =>
    have := encodeHead_len_pos 5 es.length
    simp only [encodeCbor, List.length_append]
    omega
  | null => simp [encodeCbor]

mutual

theorem depthC_le_encode : ∀ v : Cbor, depthC v ≤ (encodeCbor v).length + 1
  | .nat n => by simp [depthC]
  | .bytes b => by simp [depthC]
  | .text t => by simp [depthC]
  | .null => by simp [depthC]
  | .map es => by
      have h := depthEntries_le_encode es
      have hh := encodeHead_len_pos 5 es.length
      simp only [depthC, encodeCbor, List.length_append]
      omega

theorem depthEntries_le_encode : ∀ es : CEntries,
    depthEntries es ≤ (encodeEntries es).length + 1
  | .nil => by simp [depthEntries, encodeEntries]
  | .cons k v es => by
      have hk := depthC_le_encode k
      have hv := depthC_le_encode v
      have he := depthEntries_le_encode es
      have hk1 := encode_len_pos k
      have hv1 := encode_len_pos v
      simp only [depthEntries, encodeEntries, List.length_append]
      omega

end

theorem parse_encode (fuel : Nat) :
    (∀ (v : Cbor) (t : List Nat), wfCborB v = true → depthC v ≤ fuel →
      parseValue fuel (encodeCbor v ++ t) = .ok (v, t)) ∧
    (∀ (es : CEntries) (t : List Nat), wfEntriesB es = true → depthEntries es ≤ fuel →
      parseEntries fuel es.length (encodeEntries es ++ t) = .ok (es, t)) := by
  induction fuel with
  | zero =>
    constructor
    · intro v t _ hd
      exfalso
      cases v <;> simp [depthC] at hd
    · intro es t _ hd
      exfalso
      cases es <;> simp [depthEntries] at hd
  | succ fuel ih =>
    constructor
    · intro v t hwf hd
      cases v with
      | nat n =>
        have hn : n < TWO64 := by simpa [wfCborB] using hwf
        simp [encodeCbor, parseValue, parseHead_encodeHead 0 n t hn]
      | bytes b =>
        have hn : b.length < TWO64 := by simpa [wfCborB] using hwf
        simp [encodeCbor, parseValue, List.append_assoc,
          parseHead_encodeHead 2 b.length (b ++ t) hn, takeN_append]
      | text s =>
        have hn : s.length < TWO64 := by simpa [wfCborB] using hwf
        simp [encodeCbor, parseValue, List.append_assoc,
          parseHead_encodeHead 3 s.length (s ++ t) hn, takeN_append]
      | map es =>
        simp only [wfCborB, Bool.and_eq_true, decide_eq_true_eq] at hwf
        have hd' : depthEntries es ≤ fuel := by
          simp only [depthC] at hd
          omega
        have he := ih.2 es t hwf.2 hd'
        simp [encodeCbor, parseValue, List.append_assoc,
          parseHead_encodeHead 5 es.length (encodeEntries es ++ t) hwf.1, he]
      | null =>
        simp [encodeCbor, parseValue, parseHead]
    · intro es t hwf hd
      cases es with
      | nil =>
        simp [encodeEntries, CEntries.length, parseEntries]
      | cons k v rest =>
        simp only [wfEntriesB, Bool.and_eq_true] at hwf
        obtain ⟨⟨hwk, hwv⟩, hwr⟩ := hwf
        have hdk : depthC k ≤ fuel := by
          simp only [depthEntries] at hd
          omega
        have hdv : depthC v ≤ fuel := by
          simp only [depthEntries] at hd
          omega
        have hdr : depthEntries rest ≤ fuel := by
          simp only [depthEntries] at hd
          omega
        have h1 := ih.1 k (encodeCbor v ++ (encodeEntries rest ++ t)) hwk hdk
        have h2 := ih.1 v (encodeEntries rest ++ t) hwv hdv
        have h3 := ih.2 rest t hwr hdr
        simp [encodeEntries, CEntries.length, parseEntries, List.append_assoc, h1, h2, h3]

theorem parse_fuel_step (fuel : Nat) :
    (∀ s v r, parseValue fuel s = .ok (v, r) → parseValue (fuel + 1) s = .ok (v, r)) ∧
    (∀ n s es r, parseEntries fuel n s = .ok (es, r) →
      parseEntries (fuel + 1) n s = .ok (es, r)) := by
  induction fuel with
  | zero =>
    constructor
    · intro s v r h
      simp [parseValue] at h
    · intro n s es r h
      simp [parseEntries] at h
  | succ fuel ih =>
    constructor
    · intro s v r h
      simp only [parseValue] at h ⊢
      cases hh : parseHead s with
      | error e =>
        simp only [hh] at h
        simp at h
      | ok x =>
        obtain ⟨major, val, rest⟩ := x
        simp only [hh] at h ⊢
        by_cases h5 : major = 5
        · subst h5
          rw [if_neg (show ¬((5 : Nat) = 0) by decide),
            if_neg (show ¬((5 : Nat) = 2) by decide),
            if_neg (show ¬((5 : Nat) = 3) by decide),
            if_pos (show (5 : Nat) = 5 from rfl)] at h ⊢
          cases hp : parseEntries fuel val rest with
          | error e =>
            rw [hp] at h
            simp at h
          | ok p =>
            obtain ⟨es', r'⟩ := p
            rw [hp] at h
            rw [ih.2 val rest es' r' hp]
            exact h
        · rw [if_neg h5] at h ⊢
          exact h
    · intro n s es r h
      cases n with
      | zero =>
        simp only [parseEntries] at h ⊢
        exact h
      | succ n =>
        simp only [parseEntries] at h ⊢
        cases h1 : parseValue fuel s with
        | error e =>
          simp only [h1] at h
          simp at h
        | ok p =>
          obtain ⟨k, r1⟩ := p
          simp only [h1] at h
          simp only [ih.1 s k r1 h1]
          cases h2 : parseValue fuel r1 with
          | error e =>
            simp only [h2] at h
            simp at h
          | ok q =>
            obtain ⟨v, r2⟩ := q
            simp only [h2] at h
            simp only [ih.1 r1 v r2 h2]
            cases h3 : parseEntries fuel n r2 with
            | error e =>
              simp only [h3] at h
              simp at h
            | ok w =>
              obtain ⟨es', r3⟩ := w
              simp only [h3] at h
              simp only [ih.2 n r2 es' r3 h3]
              exact h

theorem parseValue_mono {f1 f2 : Nat} (hf : f1 ≤ f2) {s : List Nat} {v : Cbor}
    {r : List Nat} (hp : parseValue f1 s = .ok (v, r)) :
    parseValue f2 s = .ok (v, r) := by
  induction f2, hf using Nat.le_induction with
  | base => exact hp
  | succ f2 _hle ih => exact (parse_fuel_step f2).1 s v r ih

theorem takeN_extend {n : Nat} {s xs r : List Nat} (h : takeN n s = .ok (xs, r))
    (t : List Nat) : takeN n (s ++ t) = .ok (xs, r ++ t) := by
  induction n generalizing s xs r with
  | zero =>
    simp only [takeN] at h
    cases h
    simp [takeN]
  | succ n ih =>
    cases s with
    | nil => simp [takeN] at h
    | cons b s' =>
      simp only [takeN, List.cons_append, List.append_eq] at h ⊢
      cases ht : takeN n s' with
      | error e =>
        simp only [ht] at h
        simp at h
      | ok p =>
        obtain ⟨xs', r'⟩ := p
        simp only [ht] at h
        simp only [ih ht]
        cases h
        rfl

theorem headTail_extend {len major : Nat} {r : List Nat} {m v : Nat} {rest : List Nat}
    (h : headTail len major r = .ok (m, v, rest)) (t : List Nat) :
    headTail len major (r ++ t) = .ok (m, v, rest ++ t) := by
  unfold headTail at h ⊢
  cases ht : takeN len r with
  | error e =>
    simp only [ht] at h
    simp at h
  | ok p =>
    obtain ⟨ds, r'⟩ := p
    simp only [ht] at h
    simp only [takeN_extend ht]
    cases h
    rfl

theorem parseHead_extend {s : List Nat} {m v : Nat} {rest : List Nat}
    (h : parseHead s = .ok (m, v, rest)) (t : List Nat) :
    parseHead (s ++ t) = .ok (m, v, rest ++ t) := by
  cases s with
  | nil => simp [parseHead] at h
  | cons b r =>
    simp only [parseHead, List.cons_append] at h ⊢
    split_ifs at h ⊢
    · cases h
      rfl
    · exact headTail_extend h t
    · exact headTail_extend h t
    · exact headTail_extend h t
    · exact headTail_extend h t

theorem parse_extend (fuel : Nat) :
    (∀ s v r t, parseValue fuel s = .ok (v, r) →
      parseValue fuel (s ++ t) = .ok (v, r ++ t)) ∧
    (∀ n s es r t, parseEntries fuel n s = .ok (es, r) →
      parseEntries fuel n (s ++ t) = .ok (es, r ++ t)) := by
  induction fuel with
  | zero =>
    constructor
    · intro s v r t h
      simp [parseValue] at h
    · intro n s es r t h
      simp [parseEntries] at h
  | succ fuel ih =>
    constructor
    · intro s v r t h
      simp only [parseValue] at h ⊢
      cases hh : parseHead s with
      | error e =>
        simp only [hh] at h
        simp at h
      | ok x =>
        obtain ⟨major, val, rest⟩ := x
        simp only [hh] at h
        simp only [parseHead_extend hh t]
        by_cases h0 : major = 0
        · subst h0
          rw [if_pos (show (0 : Nat) = 0 from rfl)] at h ⊢
          cases h
          rfl
        · rw [if_neg h0] at h ⊢
          by_cases h2 : major = 2
          · subst h2
            rw [if_pos (show (2 : Nat) = 2 from rfl)] at h ⊢
            cases ht : takeN val rest with
            | error e =>
              simp only [ht] at h
              simp at h
            | ok p =>
              obtain ⟨b, r'⟩ := p
              simp only [ht] at h
              simp only [takeN_extend ht]
              cases h
              rfl
          · rw [if_neg h2] at h ⊢
            by_cases h3 : major = 3
            · subst h3
              rw [if_pos (show (3 : Nat) = 3 from rfl)] at h ⊢
              cases ht : takeN val rest with
              | error e =>
                simp only [ht] at h
                simp at h
              | ok p =>
                obtain ⟨b, r'⟩ := p
                simp only [ht] at h
                simp only [takeN_extend ht]
                cases h
                rfl
            · rw [if_neg h3] at h ⊢
              by_cases h5 : major = 5
              · subst h5
                rw [if_pos (show (5 : Nat) = 5 from rfl)] at h ⊢
                cases hp : parseEntries fuel val rest with
                | error e =>
                  simp only [hp] at h
                  simp at h
                | ok p =>
                  obtain ⟨es', r'⟩ := p
                  simp only [hp] at h
                  simp only [ih.2 val rest es' r' t hp]
                  cases h
                  rfl
              · rw [if_neg h5] at h ⊢
                by_cases h7 : major = 7
                · subst h7
                  rw [if_pos (show (7 : Nat) = 7 from rfl)] at h ⊢
                  by_cases hv : val = 22
                  · subst hv
                    rw [if_pos (show (22 : Nat) = 22 from rfl)] at h ⊢
                    cases h
                    rfl
                  · rw [if_neg hv] at h
                    simp at h
                · rw [if_neg h7] at h
                  simp at h
    · intro n s es r t h
      cases n with
      | zero =>
        simp only [parseEntries] at h ⊢
        cases h
        rfl
      | succ n =>
        simp only [parseEntries] at h ⊢
        cases h1 : parseValue fuel s with
        | error e =>
          simp only [h1] at h
          simp at h
        | ok p =>
          obtain ⟨k, r1⟩ := p
          simp only [h1] at h
          simp only [ih.1 s k r1 t h1]
          cases h2 : parseValue fuel r1 with
          | error e =>
            simp only [h2] at h
            simp at h
          | ok q =>
            obtain ⟨v, r2⟩ := q
            simp only [h2] at h
            simp only [ih.1 r1 v r2 t h2]
            cases h3 : parseEntries fuel n r2 with
            | error e =>
              simp only [h3] at h
              simp at h
            | ok w =>
              obtain ⟨es', r3⟩ := w
              simp only [h3] at h
              simp only [ih.2 n r2 es' r3 t h3]
              cases h
              rfl

theorem decodeTop_encode (v : Cbor) (hwf : wfCborB v = true) :
    decodeTop (encodeCbor v) = .ok v := by
  unfold decodeTop
  have hd : depthC v ≤ (encodeCbor v).length + 1 := depthC_le_encode v
  have h := (parse_encode ((encodeCbor v).length + 1)).1 v [] hwf hd
  rw [List.append_nil] at h
  rw [h]

theorem decodeTop_truncated {s : List Nat} {v : Cbor} (hs : decodeTop s = .ok v)
    {k : Nat} (hk : k < s.length) : decodeTop (s.take k) = .error () := by
  unfold decodeTop at hs
  have hp : parseValue (s.length + 1) s = .ok (v, []) := by
    cases hq : parseValue (s.length + 1) s with
    | error e =>
      simp only [hq] at hs
      exact absurd hs (by simp)
    | ok p =>
      obtain ⟨v', rest⟩ := p
      cases rest with
      | nil =>
        simp only [hq, Except.ok.injEq] at hs
        subst hs
        rfl
      | cons a as =>
        simp only [hq] at hs
        exact absurd hs (by simp)
  unfold decodeTop
  cases hq : parseValue ((s.take k).length + 1) (s.take k) with
  | error e =>
    simp only [hq]
  | ok p =>
    obtain ⟨v', rest⟩ := p
    cases rest with
    | cons a as => simp only [hq]
    | nil =>
      exfalso
      have he := (parse_extend ((s.take k).length + 1)).1 (s.take k) v' [] (s.drop k) hq
      rw [List.take_append_drop] at he
      have hle : (s.take k).length + 1 ≤ s.length + 1 := by
        simp only [List.length_take]
        omega
      have hm := parseValue_mono hle he
      rw [hp] at hm
      simp only [List.nil_append, Except.ok.injEq, Prod.mk.injEq] at hm
      have hd : s.drop k = [] := hm.2.symm
      have := List.drop_eq_nil_iff.mp hd
      omega

theorem natToDigits_length (n : Nat) : (natToDigits n).length ≤ n / 10 + 2 := by
  induction n using Nat.strong_induction_on with
  | _ n ih =>
    unfold natToDigits
    split_ifs with h
    · simp
    · have := ih (n / 10) (by omega)
      simp only [List.length_append, List.length_singleton]
      omega

theorem natToDigits_ne_nil (n : Nat) : natToDigits n ≠ [] := by
  unfold natToDigits
  split_ifs with h
  · simp
  · simp

theorem digitsToNatAux_append (xs ys : List Nat) (acc : Nat) :
    digitsToNatAux (xs ++ ys) acc =
      match digitsToNatAux xs acc with
      | some a => digitsToNatAux ys a
      | none => none := by
  induction xs generalizing acc with
  | nil => simp [digitsToNatAux]
  | cons d rest ih =>
    simp only [List.cons_append, digitsToNatAux]
    split_ifs <;> simp [ih]

theorem digitsToNatAux_natToDigits (n : Nat) : ∀ acc : Nat,
    digitsToNatAux (natToDigits n) acc =
      some (acc * 10 ^ (natToDigits n).length + n) := by
  induction n using Nat.strong_induction_on with
  | _ n ih =>
    intro acc
    unfold natToDigits
    split_ifs with h
    · simp only [digitsToNatAux]
      rw [if_pos (by omega), if_pos (by omega)]
      simp only [digitsToNatAux, List.length_singleton, pow_one]
      congr 1
      omega
    · rw [digitsToNatAux_append, ih (n / 10) (by omega) acc]
      simp only [digitsToNatAux]
      rw [if_pos (by omega), if_pos (by omega)]
      simp only [digitsToNatAux, List.length_append, List.length_singleton]
      congr 1
      rw [pow_succ, ← Nat.mul_assoc]
      have hmod : 48 + n % 10 - 48 = n % 10 := by omega
      rw [hmod]
      have hdm : n / 10 * 10 + n % 10 = n := by omega
      rw [Nat.add_mul]
      omega

theorem digitsToNat_natToDigits (n : Nat) : digitsToNat (natToDigits n) = some n := by
  have h := digitsToNatAux_natToDigits n 0
  cases hl : natToDigits n with
  | nil => exact absurd hl (natToDigits_ne_nil n)
  | cons d rest =>
    rw [hl] at h
    simp only [digitsToNat]
    simpa using h

theorem bytesLt_irrefl (a : List Nat) : bytesLt a a = false := by
  induction a with
  | nil => rfl
  | cons x xs ih => simp [bytesLt, ih]

theorem bytesLt_asymm {a b : List Nat} (h : bytesLt a b = true) :
    bytesLt b a = false := by
  induction a generalizing b with
  | nil =>
    cases b with
    | nil => simp [bytesLt] at h
    | cons y ys => simp [bytesLt]
  | cons x xs ih =>
    cases b with
    | nil => simp [bytesLt] at h
    | cons y ys =>
      simp only [bytesLt] at h ⊢
      by_cases hxy : x < y
      · rw [if_neg (by omega), if_neg (by omega)]
      · by_cases hxy2 : x = y
        · subst hxy2
          rw [if_neg hxy, if_pos rfl] at h
          rw [if_neg (by omega), if_pos rfl]
          exact ih h
        · rw [if_neg hxy, if_neg hxy2] at h
          simp at h

theorem insertSorted_append {k : List Nat} (v : List Nat)
    {acc : List (List Nat × List Nat)}
    (h : ∀ p ∈ acc, bytesLt p.1 k = true) :
    insertSorted k v acc = acc ++ [(k, v)] := by
  induction acc with
  | nil => rfl
  | cons p rest ih =>
    obtain ⟨k', v'⟩ := p
    have hk' : bytesLt k' k = true := h (k', v') (by simp)
    have h1 : bytesLt k k' = false := bytesLt_asymm hk'
    have h2 : k ≠ k' := by
      intro he
      subst he
      rw [bytesLt_irrefl] at hk'
      exact absurd hk' (by simp)
    simp [insertSorted, h1, h2, ih (fun p hp => h p (List.mem_cons_of_mem _ hp))]

theorem allLt_forall {k : List Nat} {l : List (List Nat × List Nat)}
    (h : allLt k l = true) : ∀ p ∈ l, bytesLt k p.1 = true := by
  induction l with
  | nil => simp
  | cons q rest ih =>
    obtain ⟨k', v'⟩ := q
    simp only [allLt, Bool.and_eq_true] at h
    intro p hp
    rcases List.mem_cons.mp hp with h1 | h2
    · subst h1
      exact h.1
    · exact ih h.2 p h2

theorem parseKeyMap_roundtrip (len : Nat) (l : List (List Nat × List Nat))
    (hwf : keyMapWf len l = true) :
    ∀ acc : List (List Nat × List Nat),
      (∀ p ∈ acc, ∀ q ∈ l, bytesLt p.1 q.1 = true) →
      parseKeyMap len (keysToEntries l) acc = .ok (acc ++ l) := by
  induction l with
  | nil =>
    intro acc _
    simp [keysToEntries, parseKeyMap]
  | cons kv rest ih =>
    obtain ⟨k, v⟩ := kv
    intro acc hacc
    simp only [keyMapWf, Bool.and_eq_true, decide_eq_true_eq] at hwf
    obtain ⟨⟨⟨hv, _hk⟩, hall⟩, hrest⟩ := hwf
    simp only [keysToEntries, parseKeyMap]
    rw [if_pos hv]
    rw [insertSorted_append v (fun p hp => hacc p hp (k, v) (by simp))]
    rw [ih hrest (acc ++ [(k, v)]) ?_]
    · simp
    · intro p hp q hq
      rcases List.mem_append.mp hp with h1 | h2
      · exact hacc p h1 q (List.mem_cons_of_mem _ hq)
      · simp only [List.mem_singleton] at h2
        subst h2
        exact allLt_forall hall q hq

theorem keysToEntries_length (l : List (List Nat × List Nat)) :
    (keysToEntries l).length = l.length := by
  induction l with
  | nil => rfl
  | cons kv rest ih =>
    obtain ⟨k, v⟩ := kv
    simp [keysToEntries, CEntries.length, ih]

theorem wf_keysToEntries {len : Nat} (hlen : len < TWO64)
    {l : List (List Nat × List Nat)} (h : keyMapWf len l = true) :
    wfEntriesB (keysToEntries l) = true := by
  induction l with
  | nil => rfl
  | cons kv rest ih =>
    obtain ⟨k, v⟩ := kv
    simp only [keyMapWf, Bool.and_eq_true, decide_eq_true_eq] at h
    obtain ⟨⟨⟨hv, hk⟩, _hall⟩, hrest⟩ := h
    simp only [keysToEntries, wfEntriesB, wfCborB, Bool.and_eq_true, decide_eq_true_eq]
    exact ⟨⟨hk, by rw [hv]; exact hlen⟩, ih hrest⟩

theorem natToDigits_length_lt {n : Nat} (h : n < TWO64) :
    (natToDigits n).length < TWO64 := by
  have := natToDigits_length n
  simp only [TWO64] at h ⊢
  omega

theorem wf_metadataToCbor {m : BackupMetadata} (hv : validMeta m = true) :
    wfCborB (metadataToCbor m) = true := by
  unfold validMeta at hv
  simp only [Bool.and_eq_true, decide_eq_true_eq] at hv
  obtain ⟨⟨⟨⟨⟨hts, hnk⟩, hnkl⟩, htk⟩, htkl⟩, hmu⟩ := hv
  have hn32 : (32 : Nat) < TWO64 := by decide
  have hn64 : (64 : Nat) < TWO64 := by decide
  have h1 : (strBytes "timestamp").length < TWO64 := by decide
  have h2 : (strBytes "network_keys").length < TWO64 := by decide
  have h3 : (strBytes "tor_keys").length < TWO64 := by decide
  have h4 : (strBytes "marketplace_url").length < TWO64 := by decide
  have h5 : (natToDigits m.timestamp).length < TWO64 := natToDigits_length_lt hts
  have hmu' : wfCborB (urlToCbor m.marketplace_url) = true := by
    cases hu : m.marketplace_url with
    | none => rfl
    | some u =>
      rw [hu] at hmu
      simp only [decide_eq_true_eq] at hmu
      simpa [urlToCbor, wfCborB] using hmu
  unfold metadataToCbor
  simp [wfCborB, wfEntriesB, CEntries.length, keysToEntries_length,
    h1, h2, h3, h4, h5, hnkl, htkl, hmu',
    wf_keysToEntries hn32 hnk, wf_keysToEntries hn64 htk,
    (by decide : (4 : Nat) < TWO64)]

theorem parseFields_step_ts (T : Nat) (R : CEntries)
    (a2 : Option (List (List Nat × List Nat))) (a3 : Option (List (List Nat × List Nat)))
    (a4 : Option (Option (List Nat))) :
    parseFields (.cons (.text (strBytes "timestamp")) (.text (natToDigits T)) R)
      ⟨none, a2, a3, a4⟩ = parseFields R ⟨some T, a2, a3, a4⟩ := by
  simp only [parseFields]
  rw [if_pos trivial, digitsToNat_natToDigits]

theorem parseFields_step_nk {km : List (List Nat × List Nat)}
    (hwf : keyMapWf 32 km = true) (R : CEntries)
    (a1 : Option Nat) (a3 : Option (List (List Nat × List Nat)))
    (a4 : Option (Option (List Nat))) :
    parseFields (.cons (.text (strBytes "network_keys")) (.map (keysToEntries km)) R)
      ⟨a1, none, a3, a4⟩ = parseFields R ⟨a1, some km, a3, a4⟩ := by
  have h := parseKeyMap_roundtrip 32 km hwf [] (by simp)
  simp only [List.nil_append] at h
  simp only [parseFields]
  rw [if_pos trivial, h, if_neg (by decide)]

theorem parseFields_step_tk {km : List (List Nat × List Nat)}
    (hwf : keyMapWf 64 km = true) (R : CEntries)
    (a1 : Option Nat) (a2 : Option (List (List Nat × List Nat)))
    (a4 : Option (Option (List Nat))) :
    parseFields (.cons (.text (strBytes "tor_keys")) (.map (keysToEntries km)) R)
      ⟨a1, a2, none, a4⟩ = parseFields R ⟨a1, a2, some km, a4⟩ := by
  have h := parseKeyMap_roundtrip 64 km hwf [] (by simp)
  simp only [List.nil_append] at h
  simp only [parseFields]
  rw [if_pos trivial, h, if_neg (by decide), if_neg (by decide)]

theorem parseFields_step_mu (u : Option (List Nat)) (R : CEntries)
    (a1 : Option Nat) (a2 : Option (List (List Nat × List Nat)))
    (a3 : Option (List (List Nat × List Nat))) :
    parseFields (.cons (.text (strBytes "marketplace_url")) (urlToCbor u) R)
      ⟨a1, a2, a3, none⟩ = parseFields R ⟨a1, a2, a3, some u⟩ := by
  cases u with
  | none =>
    simp only [urlToCbor, parseFields]
    rw [if_pos trivial, if_neg (by decide), if_neg (by decide), if_neg (by decide)]
  | some u =>
    simp only [urlToCbor, parseFields]
    rw [if_pos trivial, if_neg (by decide), if_neg (by decide), if_neg (by decide)]

theorem metadataFromCbor_roundtrip {m : BackupMetadata} (hv : validMeta m = true) :
    metadataFromCbor (metadataToCbor m) = .ok m := by
  have hv' := hv
  unfold validMeta at hv'
  simp only [Bool.and_eq_true, decide_eq_true_eq] at hv'
  obtain ⟨⟨⟨⟨⟨_hts, hnk⟩, _hnkl⟩, htk⟩, _htkl⟩, _hmu⟩ := hv'
  unfold metadataToCbor
  simp only [metadataFromCbor]
  rw [parseFields_step_ts, parseFields_step_nk hnk, parseFields_step_tk htk,
    parseFields_step_mu]
  simp only [parseFields]
  rfl

/-- Claim C2: decoding an encoded envelope in which the optional fields
(`network_keys`, `tor_keys`, `marketplace_url`) are absent succeeds and yields the
declared defaults: both key maps decode to empty maps and the marketplace url
decodes to absent. -/
theorem c2_absent_fields_default (ts : Nat) (hts : ts < TWO64) :
    decodeMetadata (encodeCbor (.map (.cons (.text (strBytes "timestamp"))
      (.text (natToDigits ts)) .nil))) =
      .ok ⟨ts, [], [], none⟩ := by
  have hwf : wfCborB (.map (.cons (.text (strBytes "timestamp"))
      (.text (natToDigits ts)) .nil)) = true := by
    simp [wfCborB, wfEntriesB, CEntries.length, natToDigits_length_lt hts,
      (by decide : (1 : Nat) < TWO64),
      (by decide : (strBytes "timestamp").length < TWO64)]
  unfold decodeMetadata
  simp only [decodeTop_encode _ hwf, metadataFromCbor]
  rw [parseFields_step_ts]
  simp only [parseFields]
  rfl

theorem c2_absent_fields_default_witness :
    (1700000000 : Nat) < TWO64 ∧
    decodeMetadata (encodeCbor (.map (.cons (.text (strBytes "timestamp"))
      (.text (natToDigits 1700000000)) .nil))) =
      .ok ⟨1700000000, [], [], none⟩ :=
  ⟨by decide, c2_absent_fields_default 1700000000 (by decide)⟩

/-- Claim C7: for every valid `BackupMetadata` value `m`, `decode (encode m) = ok m`;
decoding any strict prefix of an encoded envelope (truncation), or an envelope whose
`timestamp` field carries a non-text (integer) value (type mismatch), yields a
`Serialization`-kind error rather than any default value. -/
theorem c7_roundtrip_and_reject (m : BackupMetadata) (hv : validMeta m = true) :
    decodeMetadata (encodeMetadata m) = .ok m ∧
    (∀ k, k < (encodeMetadata m).length →
      decodeMetadata ((encodeMetadata m).take k) = .error ⟨.serialization, "cbor"⟩) ∧
    (∀ n, n < TWO64 →
      decodeMetadata (encodeCbor (.map (.cons (.text (strBytes "timestamp"))
        (.nat n) .nil))) = .error ⟨.serialization, "cbor"⟩) := by
  have hwf := wf_metadataToCbor hv
  have htop : decodeTop (encodeMetadata m) = .ok (metadataToCbor m) :=
    decodeTop_encode _ hwf
  refine ⟨?_, ?_, ?_⟩
  · unfold decodeMetadata
    simp only [htop, metadataFromCbor_roundtrip hv]
  · intro k hk
    have ht := decodeTop_truncated htop hk
    unfold decodeMetadata
    rw [ht]
  · intro n hn
    have hwf2 : wfCborB (.map (.cons (.text (strBytes "timestamp"))
        (.nat n) .nil)) = true := by
      simp [wfCborB, wfEntriesB, CEntries.length, hn,
        (by decide : (1 : Nat) < TWO64),
        (by decide : (strBytes "timestamp").length < TWO64)]
    have hfc : metadataFromCbor (.map (.cons (.text (strBytes "timestamp"))
        (.nat n) .nil)) = .error () := by
      simp only [metadataFromCbor, parseFields]
      rw [if_pos trivial]
    unfold decodeMetadata
    simp only [decodeTop_encode _ hwf2, hfc]

theorem c7_roundtrip_and_reject_witness :
    validMeta (⟨5, [(strBytes "eth0", List.replicate 32 7)],
      [(strBytes "eth0", List.replicate 64 9)],
      some (strBytes "https://registry.start9.com")⟩ : BackupMetadata) = true ∧
    decodeMetadata (encodeMetadata ⟨5, [(strBytes "eth0", List.replicate 32 7)],
      [(strBytes "eth0", List.replicate 64 9)],
      some (strBytes "https://registry.start9.com")⟩) =
      .ok ⟨5, [(strBytes "eth0", List.replicate 32 7)],
        [(strBytes "eth0", List.replicate 64 9)],
        some (strBytes "https://registry.start9.com")⟩ :=
  ⟨by decide, (c7_roundtrip_and_reject _ (by decide)).1⟩

/-! ## Claim theorems on the orchestrator -/

/-- Claim C1 as stated is false on the code: `create` samples the envelope
timestamp with `Utc::now()` only after the archive copy is committed
(`backup/mod.rs` line 170), not at the instant the create procedure's execution was
reported successful.  In the execution `c1env` the procedure is reported successful
at instant 0, the clock reads 5 after the archive commit, the call succeeds, and
both the persisted and the returned timestamp are 5, not 0. -/
theorem c1_counterexample :
    (backupCreate c1env "Acme CRM" "1.2.0" "0.3.3").1 =
      .ok ⟨"0.3.3", "Acme CRM", "1.2.0", 5⟩ ∧
    c1env.tProcSuccess = 0 ∧
    (backupCreate c1env "Acme CRM" "1.2.0" "0.3.3").2.metadataCommitted.map
      BackupMetadata.timestamp = some 5 ∧
    ¬((backupCreate c1env "Acme CRM" "1.2.0" "0.3.3").2.metadataCommitted.map
      BackupMetadata.timestamp = some c1env.tProcSuccess) := by
  refine ⟨rfl, rfl, rfl, ?_⟩
  intro h
  simp [c1env, backupCreate, projectKeys] at h

/-- Claim C1 amended: for every successful `create` call, the timestamp persisted
in the metadata envelope and the timestamp returned in `PackageBackupInfo` both
equal the single `Utc::now()` instant sampled after the archive copy commits and
before the metadata envelope is written (which may be later than the instant the
create procedure was reported successful). -/
theorem c1_amended (env : CreateEnv) (t v o : String) (info : PackageBackupInfo)
    (h : (backupCreate env t v o).1 = .ok info) :
    info.timestamp = env.tAfterArchiveSave ∧
    (backupCreate env t v o).2.metadataCommitted.map BackupMetadata.timestamp =
      some info.timestamp := by
  unfold backupCreate at h ⊢
  cases h0 : env.dirResult with
  | error e =>
    simp only [h0] at h
    exact absurd h (by simp)
  | ok u0 =>
  simp only [h0] at h ⊢
  cases h1 : env.procResult with
  | error e =>
    simp only [h1] at h
    exact absurd h (by simp)
  | ok pr =>
  cases pr with
  | error pe =>
    simp only [h1] at h
    exact absurd h (by simp)
  | ok u1 =>
  simp only [h1] at h ⊢
  cases h2 : env.keysResult with
  | error e =>
    simp only [h2] at h
    exact absurd h (by simp)
  | ok ks =>
  simp only [h2] at h ⊢
  cases h3 : env.marketplaceUrlResult with
  | error e =>
    simp only [h3] at h
    exact absurd h (by simp)
  | ok mp =>
  simp only [h3] at h ⊢
  cases h4 : env.openArchiveResult with
  | error e =>
    simp only [h4] at h
    exact absurd h (by simp)
  | ok u4 =>
  simp only [h4] at h ⊢
  cases h5 : env.newArchiveFileResult with
  | error e =>
    simp only [h5] at h
    exact absurd h (by simp)
  | ok u5 =>
  simp only [h5] at h ⊢
  cases h6 : env.copyResult with
  | error e =>
    simp only [h6] at h
    exact absurd h (by simp)
  | ok u6 =>
  simp only [h6] at h ⊢
  cases h7 : env.saveArchiveResult with
  | error e =>
    simp only [h7] at h
    exact absurd h (by simp)
  | ok u7 =>
  simp only [h7] at h ⊢
  cases h8 : env.newMetadataFileResult with
  | error e =>
    simp only [h8] at h
    exact absurd h (by simp)
  | ok u8 =>
  simp only [h8] at h ⊢
  cases h9 : env.writeMetadataResult with
  | error e =>
    simp only [h9] at h
    exact absurd h (by simp)
  | ok u9 =>
  simp only [h9] at h ⊢
  cases h10 : env.saveMetadataResult with
  | error e =>
    simp only [h10] at h
    exact absurd h (by simp)
  | ok u10 =>
  simp only [h10] at h ⊢
  simp only [Except.ok.injEq] at h
  subst h
  exact ⟨rfl, rfl⟩

theorem c1_amended_witness :
    (backupCreate c1env "Acme CRM" "1.2.0" "0.3.3").1 =
      .ok ⟨"0.3.3", "Acme CRM", "1.2.0", 5⟩ ∧
    ((⟨"0.3.3", "Acme CRM", "1.2.0", 5⟩ : PackageBackupInfo).timestamp =
      c1env.tAfterArchiveSave ∧
    (backupCreate c1env "Acme CRM" "1.2.0" "0.3.3").2.metadataCommitted.map
      BackupMetadata.timestamp = some (5 : Nat)) :=
  ⟨rfl, c1_amended c1env "Acme CRM" "1.2.0" "0.3.3" ⟨"0.3.3", "Acme CRM", "1.2.0", 5⟩ rfl⟩

/-- Claim C5: restoring a package whose backup directory contains no metadata
envelope file (with the restore procedure itself succeeding) fails with a
`Filesystem`-kind (not-found) error carrying the metadata path, performs no write
to the installed record's `marketplace_url`, and does not trigger dependent
reconfiguration. -/
theorem c5_restore_missing_metadata (env : RestoreEnv)
    (hp : env.procResult = .ok (.ok ())) (hm : env.metadataBytes = none) :
    (backupRestore env).1 = .error ⟨.filesystem, "metadata.cbor"⟩ ∧
    (backupRestore env).2.marketplaceWritten = none ∧
    (backupRestore env).2.reconfigureCalls = 0 := by
  unfold backupRestore
  rw [hp, hm]
  exact ⟨rfl, rfl, rfl⟩

theorem c5_restore_missing_metadata_witness :
    c5env.procResult = .ok (.ok ()) ∧ c5env.metadataBytes = none ∧
    ((backupRestore c5env).1 = .error ⟨.filesystem, "metadata.cbor"⟩ ∧
     (backupRestore c5env).2.marketplaceWritten = none ∧
     (backupRestore c5env).2.reconfigureCalls = 0) :=
  ⟨rfl, rfl, c5_restore_missing_metadata c5env rfl rfl⟩

/-- Claim C6: when the external procedure runtime reports a non-success result for
the package's create (resp. restore) procedure, the operation returns a `Backup`-
(resp. `Restore`-) kind error carrying the procedure's own message verbatim, the
procedure was invoked exactly once, and none of the subsequent steps (key export,
archive copy, metadata write; resp. metadata read, database write, dependent
reconfiguration) are performed. -/
theorem c6_procedure_failure (cenv : CreateEnv) (renv : RestoreEnv)
    (t v o : String) (ccode rcode : Int) (cmsg rmsg : String)
    (hcd : cenv.dirResult = .ok ())
    (hcp : cenv.procResult = .ok (.error (ccode, cmsg)))
    (hrp : renv.procResult = .ok (.error (rcode, rmsg))) :
    ((backupCreate cenv t v o).1 = .error ⟨.backup, cmsg⟩ ∧
     (backupCreate cenv t v o).2 = ⟨1, false, false, false, none⟩) ∧
    ((backupRestore renv).1 = .error ⟨.restore, rmsg⟩ ∧
     (backupRestore renv).2 = ⟨1, false, none, 0⟩) := by
  simp only [backupCreate, backupRestore, hcd, hcp, hrp]
  simp

theorem c6_procedure_failure_witness :
    c6createEnv.dirResult = .ok () ∧
    c6createEnv.procResult = .ok (.error (1, "create procedure failed")) ∧
    c6restoreEnv.procResult = .ok (.error (1, "restore procedure failed")) ∧
    (((backupCreate c6createEnv "T" "1.0" "0.3.3").1 =
        .error ⟨.backup, "create procedure failed"⟩ ∧
      (backupCreate c6createEnv "T" "1.0" "0.3.3").2 = ⟨1, false, false, false, none⟩) ∧
     ((backupRestore c6restoreEnv).1 = .error ⟨.restore, "restore procedure failed"⟩ ∧
      (backupRestore c6restoreEnv).2 = ⟨1, false, none, 0⟩)) :=
  ⟨rfl, rfl, rfl,
    c6_procedure_failure c6createEnv c6restoreEnv "T" "1.0" "0.3.3" 1 1
      "create procedure failed" "restore procedure failed" rfl rfl rfl⟩

theorem volLookup_insert_same (vs : VolumeMap) (k : VolumeId) (v : Volume) :
    volLookup (volInsert vs k v) k = some v := by
  induction vs with
  | nil => simp [volInsert, volLookup]
  | cons p rest ih =>
    obtain ⟨k', v'⟩ := p
    by_cases hk : k' = k
    · simp [volInsert, volLookup, hk]
    · simp [volInsert, volLookup, hk, ih]

theorem volLookup_insert_other (vs : VolumeMap) (k k0 : VolumeId) (v : Volume)
    (h : k0 ≠ k) : volLookup (volInsert vs k v) k0 = volLookup vs k0 := by
  induction vs with
  | nil => simp [volInsert, volLookup, Ne.symm h]
  | cons p rest ih =>
    obtain ⟨k', v'⟩ := p
    by_cases hk : k' = k
    · subst hk
      simp [volInsert, volLookup, Ne.symm h]
    · simp only [volInsert, if_neg hk, volLookup]
      by_cases hk0 : k' = k0
      · simp [hk0]
      · simp [hk0, ih]

theorem volLookup_toReadonly (vs : VolumeMap) (k : VolumeId) :
    volLookup (toReadonly vs) k = (volLookup vs k).map (fun _ => ⟨true⟩) := by
  induction vs with
  | nil => rfl
  | cons p rest ih =>
    obtain ⟨k', v'⟩ := p
    simp only [toReadonly, List.map_cons, volLookup] at ih ⊢
    by_cases hk : k' = k
    · simp [hk]
    · simp [hk, ih]

/-- Claim C9: in the effective volume set `create` passes to the procedure, the
injected backup volume is present and writable, it is the only writable volume
(every declared volume is mapped to its read-only variant); in the effective
volume set `restore` passes, the injected backup volume is read-only and every
declared volume keeps its original writability. -/
theorem c9_volume_writability (vs : VolumeMap) :
    (volLookup (createVolumes vs) .backup = some ⟨false⟩ ∧
     (∀ k v, volLookup (createVolumes vs) k = some v → v.readonly = false →
        k = .backup) ∧
     (∀ k, k ≠ VolumeId.backup →
        volLookup (createVolumes vs) k = (volLookup vs k).map (fun _ => ⟨true⟩))) ∧
    (volLookup (restoreVolumes vs) .backup = some ⟨true⟩ ∧
     (∀ k, k ≠ VolumeId.backup → volLookup (restoreVolumes vs) k = volLookup vs k)) := by
  refine ⟨⟨volLookup_insert_same _ _ _, ?_, ?_⟩, ⟨volLookup_insert_same _ _ _, ?_⟩⟩
  · intro k v hl hro
    by_contra hk
    rw [createVolumes, volLookup_insert_other _ _ _ _ hk, volLookup_toReadonly] at hl
    cases hv : volLookup vs k with
    | none =>
      rw [hv] at hl
      simp at hl
    | some v0 =>
      rw [hv] at hl
      simp only [Option.map_some'] at hl
      cases hl
      simp at hro
  · intro k hk
    rw [createVolumes, volLookup_insert_other _ _ _ _ hk, volLookup_toReadonly]
  · intro k hk
    rw [restoreVolumes, volLookup_insert_other _ _ _ _ hk]

theorem c9_volume_writability_witness :
    volLookup (createVolumes [(VolumeId.named "main", ⟨false⟩)]) .backup =
      some ⟨false⟩ ∧
    volLookup (createVolumes [(VolumeId.named "main", ⟨false⟩)])
      (VolumeId.named "main") = some ⟨true⟩ ∧
    volLookup (restoreVolumes [(VolumeId.named "main", ⟨false⟩)])
      (VolumeId.named "main") = some ⟨false⟩ := by
  refine ⟨(c9_volume_writability _).1.1, ?_, ?_⟩
  · have h := (c9_volume_writability [(VolumeId.named "main", ⟨false⟩)]).1.2.2
      (VolumeId.named "main") (by simp)
    simpa [volLookup] using h
  · have h := (c9_volume_writability [(VolumeId.named "main", ⟨false⟩)]).2.2
      (VolumeId.named "main") (by simp)
    simpa [volLookup] using h

/-- Claim C8: the Durable Write Primitive's commit is atomic under interruption:
stopped at any point before the rename step, the target path's content is
byte-identical to the pre-call content; stopped at or after the rename, it is
byte-identical to the new content; no interruption point yields any third state. -/
theorem c8_atomic_commit (pre : Option (List Nat)) (newContent : List Nat) (k : Nat) :
    ((k < 3 → (commitInterrupted pre newContent k).target = pre) ∧
     (3 ≤ k → (commitInterrupted pre newContent k).target = some newContent)) ∧
    ((commitInterrupted pre newContent k).target = pre ∨
     (commitInterrupted pre newContent k).target = some newContent) := by
  rcases k with _ | _ | _ | _ | n
  · exact ⟨⟨fun _ => rfl, fun h => absurd h (by omega)⟩, .inl rfl⟩
  · exact ⟨⟨fun _ => rfl, fun h => absurd h (by omega)⟩, .inl rfl⟩
  · exact ⟨⟨fun _ => rfl, fun h => absurd h (by omega)⟩, .inl rfl⟩
  · exact ⟨⟨fun h => absurd h (by omega), fun _ => rfl⟩, .inr rfl⟩
  · have ht : commitSeq.take (n + 1 + 1 + 1 + 1) = commitSeq := by
      apply List.take_of_length_le
      simp [commitSeq]
    have hc : (commitInterrupted pre newContent (n + 1 + 1 + 1 + 1)).target =
        some newContent := by
      unfold commitInterrupted
      rw [ht]
      rfl
    exact ⟨⟨fun h => absurd h (by omega), fun _ => hc⟩, .inr hc⟩

theorem c8_atomic_commit_witness :
    (commitInterrupted (some [1]) [2] 2).target = some [1] ∧
    (commitInterrupted (some [1]) [2] 3).target = some [2] :=
  ⟨(c8_atomic_commit (some [1]) [2] 2).1.1 (by decide),
   (c8_atomic_commit (some [1]) [2] 3).1.2 (by decide)⟩

end StartOS
